import Mathlib

/-!
Verification of the `tbp` text-block parsing component
(`tbp/txtblockparsing.go`).

The Go code operates on `type Block []string` and compiled regular
expressions (`*regexp.Regexp`).  A compiled regular expression is embedded
abstractly as a function `find : String → Option (List String)` modelling
`FindStringSubmatch`: `none` models the `nil` result (no match), and
`some l` models the returned slice, with `l[0]` the whole match and
`l[1:]` the capture groups (`MatchString line` agrees with
`FindStringSubmatch(line) != nil` for a compiled regexp, and is embedded
as `(find line).isSome`).  Go run-time panics (out-of-range indexing such
as `mv[0][0]` or `l[1]`) are embedded by giving the affected operations an
`Option` result, `none` meaning the call panics.

Concrete regular expressions appearing in the source (the blank-line
check `^\s*$`, the derived end pattern `^<escaped>\S`, and the duration
pattern of `RmPeriod`) are embedded by executable character-level
functions following RE2 semantics (`\s` = `[\t\n\f\r ]`, `\d` = `[0-9]`,
`\w` = `[0-9A-Za-z_]`, leftmost-first matching).

One modelling boundary: `FetchBlock`'s end-pattern derivation escapes
the metacharacters `. ^ $ * + ? { } [ ] | ( )` of the first capture
group but not the backslash.  For a backslash-free capture the built
pattern `^<escaped>\S` is therefore a valid regular expression matching
exactly a literal prefix followed by a non-space character, and the
embedding represents it exactly.  For a capture containing a backslash
the raw backslash changes the meaning of the built pattern: its
compilation can fail (`regexp.MustCompile` panics on an invalid escape
such as `\C`) or succeed with non-literal semantics (such as `\d`).
That case lies outside this embedding's regex model; the derivation maps
it to the error outcome `none`, and no theorem below asserts anything
about it (the `FetchBlock` theorems that involve derivation carry a
backslash-free hypothesis).
-/

namespace Tbp

/-- Go `regexp` character class `\s` of RE2: space, tab, newline, form
feed, carriage return. -/
def isGoRegexSpace (c : Char) : Bool :=
  c = ' ' || c = '\t' || c = '\n' || c = '\x0c' || c = '\r'

/-- The blank-line test `regexp.MustCompile("^\\s*$").MatchString(line)`
used by `FetchBlock` to skip empty or space-only lines: it holds exactly
when every character of the line is RE2 whitespace. -/
def isBlankLine (line : String) : Bool :=
  line.data.all isGoRegexSpace

/-- Embedding of a compiled `*regexp.Regexp`: `find` models
`FindStringSubmatch` (`none` = `nil`; `some l` has the whole match at
index 0 and the capture groups after it). -/
structure Regexp where
  find : String → Option (List String)

/-- Go `type Block []string`. -/
abbrev Block := List String

/-- `Block.MatchInBlock`: scan every line; the flag records whether some
line matched, and for each matching line the capture groups `l[1:]` are
collected in line order. -/
def MatchInBlock : Block → Regexp → Bool × List (List String)
  | [], _ => (false, [])
  | line :: rest, p =>
    match p.find line, MatchInBlock rest p with
    | some l, (_, r) => (true, l.drop 1 :: r)
    | none, mr => mr

/-- `Block.SoloMatchInBlock`: on a match it returns `mv[0][0]`; the two
indexings are embedded with `List.get?`, so `none` models the Go panic
that occurs when the pattern has no capture group. -/
def SoloMatchInBlock (b : Block) (p : Regexp) : Option (Bool × String) :=
  match MatchInBlock b p with
  | (false, _) => some (false, "")
  | (true, mv) =>
    match mv.get? 0 with
    | none => none
    | some row =>
      match row.get? 0 with
      | none => none
      | some v => some (true, v)

/-- Helper for `SliceMatchInBlock`: collect `l[0]` of every row of the
`MatchInBlock` result, `none` modelling the panic on an empty row. -/
def sliceCollect : List (List String) → Option (List String)
  | [] => some []
  | row :: rest =>
    match row.get? 0 with
    | none => none
    | some v =>
      match sliceCollect rest with
      | none => none
      | some vs => some (v :: vs)

/-- `Block.SliceMatchInBlock`: one captured value per matching line
(first capture group of each match); `none` models the panic on a
zero-capture-group pattern. -/
def SliceMatchInBlock (b : Block) (p : Regexp) : Option (Bool × List String) :=
  match MatchInBlock b p with
  | (false, _) => some (false, [])
  | (true, mv) =>
    match sliceCollect mv with
    | none => none
    | some r => some (true, r)

/-- `Block.RemoveFromBlock`: keep the unmatched lines, flag whether any
line matched. -/
def RemoveFromBlock : Block → Regexp → Bool × Block
  | [], _ => (false, [])
  | line :: rest, p =>
    match p.find line, RemoveFromBlock rest p with
    | some _, (_, nb) => (true, nb)
    | none, (m, nb) => (m, line :: nb)

/-- `Block.Copy`: the Go method rebuilds the slice line by line, so on
values it is the identity. -/
def Copy (b : Block) : Block := b

/-- The regex metacharacters escaped by `FetchBlock` when it derives an
end pattern (the character class of
`regexp.MustCompile("([\\.\\^\\$\\*\\+\\?\\{\\}\\[\\]\\|\\(\\)])")`). -/
def regexMetaChars : List Char :=
  ['.', '^', '$', '*', '+', '?', '\x7b', '\x7d', '[', ']', '|', '(', ')']

/-- The escaping step of `FetchBlock`'s end-pattern derivation: each
metacharacter of the first capture group is replaced by a backslash
followed by itself.  Note that the escaped set does not contain the
backslash: a backslash in the capture group passes through unescaped. -/
def escapeRegexMeta (s : String) : String :=
  String.mk (s.data.foldr
    (fun c acc => if c ∈ regexMetaChars then '\\' :: c :: acc else c :: acc) [])

/-- The full RE2 metacharacter set as the specification's words
("escaping all regex metacharacters") describe it: the code's escaped
set together with the backslash.  This definition follows the claim's
wording and exists to be compared with `escapeRegexMeta`, the function
the source actually implements. -/
def regexMetaCharsSpec : List Char :=
  ['\\', '.', '^', '$', '*', '+', '?', '\x7b', '\x7d', '[', ']', '|', '(', ')']

/-- Escaping of every RE2 metacharacter, backslash included, as the
claim's words describe; to be compared with `escapeRegexMeta`. -/
def escapeAllRegexMetaSpec (s : String) : String :=
  String.mk (s.data.foldr
    (fun c acc => if c ∈ regexMetaCharsSpec then '\\' :: c :: acc else c :: acc) [])

/-- A capture group whose text contains no backslash: for such a group
the escaping of `escapeRegexMeta` makes the text literal, so the built
end pattern is a valid regular expression with exactly the
literal-prefix semantics of `derivedEndRegexp`. -/
def backslashFree (g : String) : Bool :=
  g.data.all (fun c => !(c = '\\'))

/-- The end pattern `regexp.MustCompile("^" + escapeRegexMeta g + "\\S")`
derived by `FetchBlock` from a backslash-free first capture group `g` of
the start line.  For such a `g` the escaping makes the text literal, so
the compiled pattern matches exactly the lines that begin with the text
of `g` immediately followed by a non-`\s` character; the whole match is
that prefix plus the one following character, and there are no capture
groups.  This definition is exact only for backslash-free `g`, and the
embedding (`fetchStart`) installs it only in that case. -/
def derivedEndRegexp (g : String) : Regexp :=
  ⟨fun line =>
    if g.data.isPrefixOf line.data then
      match line.data.drop g.data.length with
      | c :: _ => if isGoRegexSpace c then none else some [String.mk (g.data ++ [c])]
      | [] => none
    else none⟩

/-- The scan state of `FetchBlock`'s loop: the `inBlock` flag, the
current (possibly derived) end pattern, the block being accumulated, the
closed blocks, and the title-catch entries. -/
structure FBState where
  inBlock : Bool
  e : Option Regexp
  cur : List String
  blocks : List (List String)
  titles : List (Option (List String))

/-- The title-catch entry recorded for a start line whose submatch slice
is `l`: `l[2:]` when `len(l) > 2`, and `nil` otherwise. -/
def titleEntry (l : List String) : Option (List String) :=
  if 2 < l.length then some (l.drop 2) else none

/-- The start-line test of `FetchBlock` (the code after the comment
`looking for start line`): on a start match, open a new block seeded with
the line, derive the end pattern from `l[1]` when none was supplied, and
record the title entry.  The derivation is modelled exactly on the
backslash-free fragment: `none` models the panic of `l[1]` when the
start pattern has no capture group, and also marks the unmodelled case of
a capture containing a backslash, where the built
`regexp.MustCompile("^" + escp + "\\S")` sees a raw backslash and can
panic on an invalid escape (e.g. capture `\C`) or compile to a
non-literal pattern (e.g. capture `\d`); no theorem asserts anything
about that case. -/
def fetchStart (s : Regexp) (st : FBState) (line : String) : Option FBState :=
  match s.find line with
  | none => some st
  | some l =>
    match st.e with
    | some _ =>
      some { st with inBlock := true,
                     titles := st.titles ++ [titleEntry l], cur := [line] }
    | none =>
      match l.get? 1 with
      | none => none
      | some g =>
        if backslashFree g then
          some { st with inBlock := true, e := some (derivedEndRegexp g),
                         titles := st.titles ++ [titleEntry l], cur := [line] }
        else none

/-- One iteration of `FetchBlock`'s loop on a line, with `isLast` the
test `i == len(*b)-1`.  Blank lines are skipped; inside a block a
non-end line is appended (and the open block flushed when the line is the
last of the input), while an end line closes the block and re-tests the
same line against the start pattern; outside a block only the start test
runs.  The `e == nil` dereference that Go would crash on while inside a
block is modelled as `none` (it is unreachable from `FetchBlock`). -/
def fetchStep (s : Regexp) (isLast : Bool) (st : FBState) (line : String) :
    Option FBState :=
  if isBlankLine line then some st
  else if st.inBlock then
    match st.e with
    | none => none
    | some ep =>
      match ep.find line with
      | none =>
        some { st with cur := st.cur ++ [line],
                       blocks := if isLast then st.blocks ++ [st.cur ++ [line]]
                                 else st.blocks }
      | some _ =>
        fetchStart s
          { st with inBlock := false, cur := [], blocks := st.blocks ++ [st.cur] }
          line
  else fetchStart s st line

/-- `FetchBlock`'s loop over the remaining lines (a line is last exactly
when no line remains after it). -/
def fetchLoop (s : Regexp) : List String → FBState → Option FBState
  | [], st => some st
  | line :: rest, st =>
    match fetchStep s rest.isEmpty st line with
    | none => none
    | some st' => fetchLoop s rest st'

/-- `Block.FetchBlock`: run the scan from the initial state and collapse
the title catch to `nil` when no entry is non-`nil`.  The outer `Option`
models the Go panic (derivation with a capture-group-less start pattern);
the inner `Option` on the title catch models the `nil` slice. -/
def FetchBlock (b : Block) (s : Regexp) (e : Option Regexp) :
    Option (List Block × Option (List (Option (List String)))) :=
  (fetchLoop s b { inBlock := false, e := e, cur := [], blocks := [], titles := [] }).map
    (fun st =>
      (st.blocks, if st.titles.any (fun t => t.isSome) then some st.titles else none))

/-- The segmentation loop of `Block.Cut`: a line matching the start
pattern closes the current segment (pushed, possibly empty) and begins a
new one; every line is appended to the current segment; the final
segment is pushed after the loop. -/
def cutSegs (s : Regexp) : List String → List String → List (List String)
  | [], pblock => [pblock]
  | line :: rest, pblock =>
    if (s.find line).isSome then pblock :: cutSegs s rest [line]
    else cutSegs s rest (pblock ++ [line])

/-- The filtering loop shared by `Cut` and `Segment`: keep only the
segments in which the start pattern matches, recording `title[0]` (the
captures of the segment's first matching line); the `title[0]` indexing
is embedded with `List.get?`, `none` modelling a panic (unreachable,
since a matching segment has a non-empty title list). -/
def cutCollect (s : Regexp) : List (List String) → Option (List Block × List (List String))
  | [] => some ([], [])
  | seg :: rest =>
    match MatchInBlock seg s with
    | (false, _) => cutCollect s rest
    | (true, title) =>
      match title.get? 0 with
      | none => none
      | some t0 =>
        match cutCollect s rest with
        | none => none
        | some (bs, ts) => some (Copy seg :: bs, t0 :: ts)

/-- `Block.Cut`: segment on the start pattern, then keep the matching
segments. -/
def Cut (b : Block) (s : Regexp) : Option (List Block × List (List String)) :=
  cutCollect s (cutSegs s b [])

/-- The segmentation loop of `Block.Segment`: every line is appended to
the current segment, and a line matching the end pattern closes the
segment (inclusive of that line); the trailing segment is pushed after
the loop. -/
def segSegs (e : Regexp) : List String → List String → List (List String)
  | [], pblock => [pblock]
  | line :: rest, pblock =>
    if (e.find line).isSome then (pblock ++ [line]) :: segSegs e rest []
    else segSegs e rest (pblock ++ [line])

/-- `Block.Segment`: segment on the end pattern, then keep the segments
in which the start pattern matches. -/
def Segment (b : Block) (s : Regexp) (e : Regexp) :
    Option (List Block × List (List String)) :=
  cutCollect s (segSegs e b [])

/-- The cutset `" \n\t\r"` of the `strings.TrimRight` call in
`Block.Trim`. -/
def isTrimCut (c : Char) : Bool :=
  c = ' ' || c = '\n' || c = '\t' || c = '\r'

/-- `strings.TrimRight(l, " \n\t\r")`: drop the trailing cutset
characters. -/
def trimRightGo (s : String) : String :=
  String.mk ((s.data.reverse.dropWhile isTrimCut).reverse)

/-- Go `unicode.IsSpace`: the Latin-1 white space characters together
with the Unicode `White_Space` code points. -/
def unicodeIsSpace (c : Char) : Bool :=
  c = ' ' || c = '\t' || c = '\n' || c = '\x0b' || c = '\x0c' || c = '\r' ||
  c = '\u0085' || c = '\u00A0' || c = '\u1680' ||
  (0x2000 ≤ c.toNat && c.toNat ≤ 0x200A) ||
  c = '\u2028' || c = '\u2029' || c = '\u202F' || c = '\u205F' || c = '\u3000'

/-- The test `strings.TrimSpace(nl) == ""` of `Block.Trim`: it holds
exactly when every character of `nl` is `unicode.IsSpace`. -/
def isAllSpace (s : String) : Bool :=
  s.data.all unicodeIsSpace

/-- The loop of `Block.Trim` with its `lastEmpty` flag: each line loses
its trailing whitespace; a now-blank line becomes `""` and consecutive
blank lines after the first are dropped. -/
def trimLoop : List String → Bool → List String
  | [], _ => []
  | l :: rest, lastEmpty =>
    if isAllSpace (trimRightGo l) then
      if lastEmpty then trimLoop rest true
      else "" :: trimLoop rest true
    else trimRightGo l :: trimLoop rest false

/-- `Block.Trim`, as the value transformation performed by the mutating
Go method. -/
def Trim (b : Block) : Block := trimLoop b false

/-- RE2 `\d`. -/
def isDigit (c : Char) : Bool := '0' ≤ c && c ≤ '9'

/-- RE2 `\w` (`[0-9A-Za-z_]`); `\W` is its negation. -/
def isWordChar (c : Char) : Bool :=
  ('0' ≤ c && c ≤ '9') || ('a' ≤ c && c ≤ 'z') || ('A' ≤ c && c ≤ 'Z') || c = '_'

/-- First alternative `\d+[dh]\d\d[hm]\d\d[ms]` of the duration pattern
of `RmPeriod`, matched at the head of `cs`; returns the matched length.
The greedy `\d+` is the maximal digit run: a shorter run would leave a
digit under the `[dh]` class, so no backtracking case is lost. -/
def matchAlt1 (cs : List Char) : Option Nat :=
  match cs.takeWhile isDigit with
  | [] => none
  | ds =>
    match cs.drop ds.length with
    | a :: d1 :: d2 :: b2 :: d3 :: d4 :: c2 :: _ =>
      if (a = 'd' || a = 'h') && isDigit d1 && isDigit d2 &&
         (b2 = 'h' || b2 = 'm') && isDigit d3 && isDigit d4 &&
         (c2 = 'm' || c2 = 's')
      then some (ds.length + 7) else none
    | _ => none

/-- Second alternative `\d+[wd]\d+[dh]` of the duration pattern, matched
at the head of `cs`; both `\d+` are maximal digit runs for the same
reason as in `matchAlt1`. -/
def matchAlt2 (cs : List Char) : Option Nat :=
  match cs.takeWhile isDigit with
  | [] => none
  | ds =>
    match cs.drop ds.length with
    | a :: rest2 =>
      if a = 'w' || a = 'd' then
        match rest2.takeWhile isDigit with
        | [] => none
        | ds2 =>
          match rest2.drop ds2.length with
          | b2 :: _ =>
            if b2 = 'd' || b2 = 'h' then some (ds.length + 1 + ds2.length + 1)
            else none
          | [] => none
      else none
    | [] => none

/-- Third alternative `\d\d:\d\d:\d\d` of the duration pattern, matched
at the head of `cs`. -/
def matchAlt3 : List Char → Option Nat
  | d1 :: d2 :: c1 :: d3 :: d4 :: c2 :: d5 :: d6 :: _ =>
    if isDigit d1 && isDigit d2 && c1 = ':' && isDigit d3 && isDigit d4 &&
       c2 = ':' && isDigit d5 && isDigit d6
    then some 8 else none
  | _ => none

/-- The alternation of the duration pattern, in RE2 leftmost-first
preference order (the continuation `\W?` always succeeds, so the first
alternative that matches is the one the engine keeps). -/
def matchAlt (cs : List Char) : Option Nat :=
  match matchAlt1 cs with
  | some n => some n
  | none =>
    match matchAlt2 cs with
    | some n => some n
    | none => matchAlt3 cs

/-- A match of the whole `RmPeriod` pattern
`\W(\d+[dh]\d\d[hm]\d\d[ms]|\d+[wd]\d+[dh]|\d\d:\d\d:\d\d)\W?` at the
head of `cs`: a non-word character, the alternation, and a greedy
optional non-word character; returns the total matched length. -/
def matchAt (cs : List Char) : Option Nat :=
  match cs with
  | [] => none
  | c :: rest =>
    if isWordChar c then none
    else
      match matchAlt rest with
      | none => none
      | some n =>
        match rest.drop n with
        | [] => some (n + 1)
        | d :: _ => if isWordChar d then some (n + 1) else some (n + 2)

/-- The replacement text of `RmPeriod`. -/
def placeholder : List Char := ['#', '#', '#', '#']

/-- `ReplaceAllString(l, "####")` for the duration pattern: scan left to
right; at a match emit the placeholder and continue after the match, at
a non-match emit the character.  Every match consumes at least one
character, so a fuel equal to the length of the text suffices; fuel 0
(never reached from `rmPeriodLine`) returns the rest unchanged. -/
def rmLoop : Nat → List Char → List Char
  | 0, cs => cs
  | _ + 1, [] => []
  | fuel + 1, c :: rest =>
    match matchAt (c :: rest) with
    | some n => placeholder ++ rmLoop fuel ((c :: rest).drop n)
    | none => c :: rmLoop fuel rest

/-- One line of `Block.RmPeriod`. -/
def rmPeriodLine (l : String) : String :=
  String.mk (rmLoop l.data.length l.data)

/-- `Block.RmPeriod`, as the value transformation performed by the
mutating Go method. -/
def RmPeriod (b : Block) : Block := b.map rmPeriodLine

/-- The source lines of `FetchBlock` that are not skipped by the
blank-line check. -/
def filterNonBlank (b : List String) : List String :=
  b.filter (fun l => !(isBlankLine l))

/-- The first line of the input that `FetchBlock`'s scan tests against
the start pattern with success: the first non-blank line on which the
start pattern matches. -/
def firstStartLine (s : Regexp) (b : List String) : Option String :=
  b.find? (fun line => !(isBlankLine line) && (s.find line).isSome)

/-- The compiled regexp `^A$` (no capture group): it matches exactly the
line `"A"`, the whole match being that line. -/
def pA : Regexp := ⟨fun line => if line = "A" then some ["A"] else none⟩

/-- A compiled regexp that matches no line at all (such as the empty
character class `[^\s\S]`). -/
def pNone : Regexp := ⟨fun _ => none⟩

/-- The compiled regexp `^x$` (no capture group): it matches exactly the
line `"x"`. -/
def pZero : Regexp := ⟨fun line => if line = "x" then some ["x"] else none⟩

/-- The compiled regexp `^(.*)$` on newline-free lines: it matches every
line, the whole match and the single capture group both being the whole
line. -/
def pCap : Regexp := ⟨fun line => some [line, line]⟩

/-- The compiled regexp `^(I)nterface`: it matches exactly the lines
beginning with `"Interface"`, with whole match `"Interface"` and first
capture group `"I"`. -/
def startIface : Regexp :=
  ⟨fun line =>
    if "Interface".data.isPrefixOf line.data then some ["Interface", "I"]
    else none⟩

/-- The tabular device-output sample of the specification's concrete
scenario. -/
def ifaceLines : List String :=
  ["Interface   Status   Protocol", "Gi0/1       up       up",
   "Gi0/2       down     down", "Interface   Status   Protocol",
   "Gi1/1       up       up"]

/-- Dropping a satisfying run twice is the same as dropping it once. -/
theorem dropWhile_dropWhile (p : Char → Bool) (l : List Char) :
    List.dropWhile p (List.dropWhile p l) = List.dropWhile p l := by
  induction l with
  | nil => rfl
  | cons c rest ih =>
    by_cases h : p c = true <;> simp [List.dropWhile_cons, h, ih]

/-- The right trim of `Block.Trim` is idempotent. -/
theorem trimRightGo_trimRightGo (s : String) :
    trimRightGo (trimRightGo s) = trimRightGo s := by
  unfold trimRightGo
  simp [List.reverse_reverse, dropWhile_dropWhile]

/-- The loop of `Block.Trim` is idempotent, uniformly in the incoming
`lastEmpty` flag. -/
theorem trimLoop_trimLoop (b : List String) :
    ∀ le, trimLoop (trimLoop b le) le = trimLoop b le := by
  induction b with
  | nil => intro le; rfl
  | cons l rest ih =>
    intro le
    by_cases h : isAllSpace (trimRightGo l) = true
    · cases le with
      | false =>
        simp only [trimLoop, h, if_true, Bool.false_eq_true, if_false]
        have h0 : trimRightGo "" = "" := rfl
        have h1 : isAllSpace "" = true := rfl
        simp only [trimLoop, h0, h1, if_true, Bool.false_eq_true, if_false]
        simp [ih]
      | true =>
        simp only [trimLoop, h, if_true]
        exact ih true
    · simp only [trimLoop, h, Bool.false_eq_true, if_false,
        trimRightGo_trimRightGo, ih]

/-- C8: `Trim` (the specification's Normalize) is idempotent: applying it
twice produces the same block contents as applying it once. -/
theorem C8_trim_idempotent (b : Block) : Trim (Trim b) = Trim b :=
  trimLoop_trimLoop b false

/-- C5: on the tabular sample with the start pattern `^(I)nterface`
(which matches exactly the lines beginning with `"Interface"`) and no
explicit end pattern, `FetchBlock` returns exactly two blocks, each the
header line together with the data lines following it; the end pattern
derived from the capture group matches the header lines. -/
theorem C5_interface_scenario :
    FetchBlock ifaceLines startIface none =
      some ([["Interface   Status   Protocol", "Gi0/1       up       up",
              "Gi0/2       down     down"],
             ["Interface   Status   Protocol", "Gi1/1       up       up"]],
            none) ∧
    startIface.find "Interface   Status   Protocol" = some ["Interface", "I"] ∧
    ((derivedEndRegexp "I").find "Interface   Status   Protocol").isSome = true ∧
    ((derivedEndRegexp "I").find "Gi0/1       up       up").isSome = false := by
  refine ⟨by decide, by decide, by decide, by decide⟩

/-- C2 counterexample: on `["A", "b", ""]` with start pattern `^A$` and
an end pattern that never matches, the scan opens the block `["A", "b"]`
and reaches the end of the input inside it, but because the final line is
empty the open block is dropped: `FetchBlock` returns no blocks at
all. -/
theorem C2_cex :
    (pA.find "A").isSome = true ∧ pNone.find "b" = none ∧
    isBlankLine "" = true ∧
    FetchBlock ["A", "b", ""] pA (some pNone) = some ([], none) := by
  refine ⟨by decide, by decide, by decide, by decide⟩

/-- C7 counterexample: on `["A", "", "b"]` with start pattern `^A$` and a
never-matching end pattern, `FetchBlock` returns the single block
`["A", "b"]`, which is not a contiguous sub-sequence of the source: the
source line `""` lies between the block's first and last line but is
missing from the block. -/
theorem C7_cex :
    FetchBlock ["A", "", "b"] pA (some pNone) = some ([["A", "b"]], none) ∧
    ¬ (["A", "b"] <:+: (["A", "", "b"] : List String)) := by
  refine ⟨by decide, by decide⟩

/-- C9 counterexample: `RmPeriod` on the line `"uptime 3d04h22m"` yields
`"uptime####"`, not `"uptime ####"`: the bounding space before the
duration token is part of the regex match (`\W(...)\W?`) and is consumed
by the replacement, so not every non-duration character of the line is
left unchanged. -/
theorem C9_cex :
    RmPeriod ["uptime 3d04h22m"] = ["uptime####"] ∧
    ("uptime####" : String) ≠ "uptime ####" := by
  refine ⟨by decide, by decide⟩

/-- C10 counterexample: `^x$` is a compiled pattern with zero capture
groups that matches the block `["x"]`, and on it `SoloMatchInBlock` does
not return normally: the Go code indexes `mv[0][0]` into the empty
capture list and panics (embedded as `none`). -/
theorem C10_cex :
    (pZero.find "x").isSome = true ∧ SoloMatchInBlock ["x"] pZero = none := by
  refine ⟨by decide, by decide⟩

/-- C3: when a non-blank line inside a block matches the end pattern and
also the start pattern, one pass of `FetchBlock`'s loop closes the
current block without appending the line, re-tests the line against the
start pattern, and opens the next block with that same line as its first
line. -/
theorem C3_end_line_starts_next (s : Regexp) (isLast : Bool) (st : FBState)
    (line : String) (ep : Regexp) (le ls : List String)
    (hin : st.inBlock = true) (he : st.e = some ep)
    (hnb : isBlankLine line = false)
    (hend : ep.find line = some le) (hstart : s.find line = some ls) :
    ∃ st', fetchStep s isLast st line = some st' ∧
      st'.blocks = st.blocks ++ [st.cur] ∧ st'.cur = [line] ∧
      st'.inBlock = true := by
  unfold fetchStep fetchStart
  simp only [hnb, hin, he, hend, hstart, Bool.false_eq_true, if_false, if_true]
  exact ⟨_, rfl, rfl, rfl, rfl⟩

/-- Witness for C3 at a concrete scan state and line. -/
theorem C3_witness :
    ∃ st', fetchStep pA false ⟨true, some pA, ["h"], [], [none]⟩ "A" = some st' ∧
      st'.blocks = [["h"]] ∧ st'.cur = ["A"] ∧ st'.inBlock = true :=
  C3_end_line_starts_next pA false ⟨true, some pA, ["h"], [], [none]⟩ "A" pA
    ["A"] ["A"] rfl rfl (by decide) (by decide) (by decide)

/-- C2 amended: when the loop of `FetchBlock` reaches the last line of
the input while inside an open block, and that last line is non-blank and
does not match the end pattern, the open block (with the line appended)
is flushed into the returned block list.  (When the input instead ends
with blank lines, the open block is discarded, as `C2_cex` shows.) -/
theorem C2_flush_open_block (s : Regexp) (st : FBState) (line : String)
    (ep : Regexp) (hin : st.inBlock = true) (he : st.e = some ep)
    (hnb : isBlankLine line = false) (hend : ep.find line = none) :
    (fetchLoop s [line] st).map FBState.blocks =
      some (st.blocks ++ [st.cur ++ [line]]) := by
  unfold fetchLoop fetchStep
  simp [hnb, hin, he, hend]
  exact ⟨_, rfl, rfl⟩

/-- Witness for C2's amended statement at a concrete scan state. -/
theorem C2_witness :
    (fetchLoop pA ["b"] ⟨true, some pNone, ["A"], [], [none]⟩).map FBState.blocks =
      some [["A", "b"]] :=
  C2_flush_open_block pA ⟨true, some pNone, ["A"], [], [none]⟩ "b" pNone
    rfl rfl (by decide) (by decide)

/-- When every line of a non-empty input matches the start pattern, the
segmentation loop of `Cut` produces the incoming segment followed by one
single-line segment per input line. -/
theorem cutSegs_all (s : Regexp) :
    ∀ (b : List String) (pblock : List String), b ≠ [] →
      (∀ l ∈ b, (s.find l).isSome = true) →
      cutSegs s b pblock = pblock :: b.map (fun l => [l]) := by
  intro b
  induction b with
  | nil => intro pblock h; exact absurd rfl h
  | cons line rest ih =>
    intro pblock _ hall
    have h1 : (s.find line).isSome = true := hall line (by simp)
    cases rest with
    | nil => simp [cutSegs, h1]
    | cons r rs =>
      have hr : cutSegs s (line :: r :: rs) pblock =
          pblock :: cutSegs s (r :: rs) [line] := by
        conv_lhs => rw [cutSegs]
        rw [if_pos h1]
      rw [hr, ih [line] (by simp) (fun l hl => hall l (by simp [hl]))]
      simp

/-- Collecting all-matching single-line segments keeps every segment. -/
theorem cutCollect_singletons (s : Regexp) :
    ∀ b : List String, (∀ l ∈ b, (s.find l).isSome = true) →
      ∃ ts, cutCollect s (b.map fun l => [l]) = some (b.map (fun l => [l]), ts) := by
  intro b
  induction b with
  | nil => intro _; exact ⟨[], rfl⟩
  | cons line rest ih =>
    intro hall
    have h1 : (s.find line).isSome = true := hall line (by simp)
    obtain ⟨l', hl'⟩ := Option.isSome_iff_exists.mp h1
    obtain ⟨ts, hts⟩ := ih (fun l hl => hall l (by simp [hl]))
    refine ⟨l'.drop 1 :: ts, ?_⟩
    simp only [List.map_cons, cutCollect, MatchInBlock, hl', hts, Copy]
    rfl

/-- C6: on a non-empty input in which every line matches the start
pattern, `Cut` returns exactly one single-line block per input line, in
input order. -/
theorem C6_cut_single_line (b : Block) (s : Regexp) (hne : b ≠ [])
    (hall : ∀ l ∈ b, (s.find l).isSome = true) :
    (Cut b s).map Prod.fst = some (b.map fun l => [l]) := by
  unfold Cut
  rw [cutSegs_all s b [] hne hall]
  have hskip : cutCollect s ([] :: b.map fun l => [l]) =
      cutCollect s (b.map fun l => [l]) := by
    simp [cutCollect, MatchInBlock]
  obtain ⟨ts, hts⟩ := cutCollect_singletons s b hall
  rw [hskip, hts]
  rfl

/-- Witness for C6 on a concrete two-line input with the all-matching
pattern `^(.*)$`. -/
theorem C6_witness :
    (Cut ["u", "v"] pCap).map Prod.fst = some [["u"], ["v"]] :=
  C6_cut_single_line ["u", "v"] pCap (by decide)
    (fun l hl => by cases hl with
      | head => rfl
      | tail _ h2 => cases h2 with
        | head => rfl
        | tail _ h3 => cases h3)

/-- The start-line test either leaves the state unchanged or opens a new
block seeded with the line (with the end pattern now present and one
title entry appended). -/
theorem fetchStart_shape (s : Regexp) (st st₁ : FBState) (line : String)
    (h : fetchStart s st line = some st₁) :
    st₁ = st ∨
      (st₁.inBlock = true ∧ st₁.e.isSome = true ∧ st₁.cur = [line] ∧
       st₁.blocks = st.blocks ∧ ∃ t, st₁.titles = st.titles ++ [t]) := by
  unfold fetchStart at h
  split at h
  next hf =>
    injection h with h
    exact Or.inl h.symm
  next l hf =>
    split at h
    next ep he =>
      injection h with h
      subst h
      refine Or.inr ⟨rfl, ?_, rfl, rfl, ⟨titleEntry l, rfl⟩⟩
      simp only [he, Option.isSome_some]
    next he =>
      split at h
      next hg => cases h
      next g hg =>
        split at h
        · injection h with h
          subst h
          exact Or.inr ⟨rfl, rfl, rfl, rfl, ⟨titleEntry l, rfl⟩⟩
        · cases h

/-- One loop pass either skips the line (blank, or non-matching while
outside a block), appends it to the open block (flushing when last), or
closes the open block and re-runs the start test on the same line. -/
theorem fetchStep_shape (s : Regexp) (isLast : Bool) (st st₁ : FBState)
    (line : String) (h : fetchStep s isLast st line = some st₁) :
    (st₁ = st ∧ (isBlankLine line = true ∨ st.inBlock = false)) ∨
    (isBlankLine line = false ∧ st.inBlock = true ∧
      st₁ = { st with cur := st.cur ++ [line],
                      blocks := (if isLast then st.blocks ++ [st.cur ++ [line]]
                                 else st.blocks) }) ∨
    (isBlankLine line = false ∧ st.inBlock = true ∧
      fetchStart s
        { st with inBlock := false, cur := [], blocks := st.blocks ++ [st.cur] }
        line = some st₁) ∨
    (isBlankLine line = false ∧ st.inBlock = false ∧
      fetchStart s st line = some st₁) := by
  unfold fetchStep at h
  split at h
  next hb =>
    injection h with h
    exact Or.inl ⟨h.symm, Or.inl hb⟩
  next hb =>
    split at h
    next hin =>
      split at h
      next he => cases h
      next ep he =>
        split at h
        next hf =>
          injection h with h
          exact Or.inr (Or.inl ⟨by simpa using hb, hin, h.symm⟩)
        next l hf =>
          exact Or.inr (Or.inr (Or.inl ⟨by simpa using hb, hin, h⟩))
    next hin =>
      exact Or.inr (Or.inr (Or.inr ⟨by simpa using hb, by simpa using hin, h⟩))

/-- Concatenation is monotone with respect to the sublist order. -/
theorem flatten_sublist {α : Type} {l₁ l₂ : List (List α)}
    (h : List.Sublist l₁ l₂) : List.Sublist l₁.flatten l₂.flatten := by
  induction h with
  | slnil => exact List.Sublist.refl _
  | cons a _ ih =>
    simp only [List.flatten_cons]
    exact ih.trans (List.sublist_append_right a _)
  | cons₂ a _ ih =>
    simp only [List.flatten_cons]
    exact (List.Sublist.refl a).append ih

/-- One loop pass of `FetchBlock` keeps the lines collected so far (the
closed blocks followed by the open block) a sublist of the lines
processed so far; for the closed blocks alone this also survives the
last-line flush. -/
theorem fetchStep_flatten (s : Regexp) (isLast : Bool) (st st₁ : FBState)
    (line : String) (F : List String)
    (h : List.Sublist (st.blocks.flatten ++ st.cur) F)
    (hstep : fetchStep s isLast st line = some st₁) :
    (isLast = false →
      List.Sublist (st₁.blocks.flatten ++ st₁.cur) (F ++ [line])) ∧
    List.Sublist st₁.blocks.flatten (F ++ [line]) := by
  have hF : List.Sublist F (F ++ [line]) := List.sublist_append_left F [line]
  have hblocks : List.Sublist st.blocks.flatten F :=
    (List.sublist_append_left _ _).trans h
  rcases fetchStep_shape s isLast st st₁ line hstep with
    ⟨heq, _⟩ | ⟨_, _, heq⟩ | ⟨_, _, hfs⟩ | ⟨_, _, hfs⟩
  · subst heq
    exact ⟨fun _ => h.trans hF, hblocks.trans hF⟩
  · subst heq
    constructor
    · intro hl
      simp only [hl, Bool.false_eq_true, if_false]
      simpa [List.append_assoc] using h.append (List.Sublist.refl [line])
    · cases isLast with
      | false => exact hblocks.trans hF
      | true =>
        simp only [if_pos rfl, List.flatten_append, List.flatten_cons,
          List.flatten_nil, List.append_nil]
        simpa [List.append_assoc] using h.append (List.Sublist.refl [line])
  · have h₂ : List.Sublist ((st.blocks ++ [st.cur]).flatten) F := by
      simpa [List.flatten_append] using h
    rcases fetchStart_shape _ _ _ _ hfs with heq | ⟨_, _, hcur, hbl, _⟩
    · subst heq
      refine ⟨fun _ => ?_, ?_⟩
      · simpa using h₂.trans hF
      · exact h₂.trans hF
    · rw [hbl]
      refine ⟨fun _ => ?_, h₂.trans hF⟩
      rw [hcur]
      exact h₂.append (List.Sublist.refl [line])
  · rcases fetchStart_shape _ _ _ _ hfs with heq | ⟨_, _, hcur, hbl, _⟩
    · subst heq
      exact ⟨fun _ => h.trans hF, hblocks.trans hF⟩
    · rw [hbl]
      refine ⟨fun _ => ?_, hblocks.trans hF⟩
      rw [hcur]
      exact hblocks.append (List.Sublist.refl [line])

/-- Running `FetchBlock`'s loop from a state whose collected lines are a
sublist of the already-processed lines leaves the closed blocks'
concatenation a sublist of all lines. -/
theorem fetchLoop_flatten (s : Regexp) :
    ∀ (lines : List String) (st st' : FBState) (F : List String),
      List.Sublist (st.blocks.flatten ++ st.cur) F →
      fetchLoop s lines st = some st' →
      List.Sublist st'.blocks.flatten (F ++ lines) := by
  intro lines
  induction lines with
  | nil =>
    intro st st' F h hrun
    simp only [fetchLoop] at hrun
    injection hrun with hrun
    subst hrun
    simpa using (List.sublist_append_left _ _).trans h
  | cons line rest ih =>
    intro st st' F h hrun
    simp only [fetchLoop] at hrun
    rcases hstep : fetchStep s rest.isEmpty st line with _ | st₁
    · rw [hstep] at hrun; cases hrun
    · rw [hstep] at hrun
      have hinv := fetchStep_flatten s rest.isEmpty st st₁ line F h hstep
      cases rest with
      | nil =>
        simp only [fetchLoop] at hrun
        injection hrun with hrun
        subst hrun
        simpa using hinv.2
      | cons r rs =>
        have h1 := hinv.1 rfl
        have h2 := ih st₁ st' (F ++ [line]) h1 hrun
        simpa [List.append_assoc] using h2

/-- The segments produced by `Cut`'s segmentation loop concatenate to
the incoming segment followed by the input lines. -/
theorem cutSegs_flatten (s : Regexp) :
    ∀ (b pblock : List String), (cutSegs s b pblock).flatten = pblock ++ b := by
  intro b
  induction b with
  | nil => intro pblock; simp [cutSegs]
  | cons line rest ih =>
    intro pblock
    by_cases hm : (s.find line).isSome = true
    · simp [cutSegs, hm, ih]
    · simp [cutSegs, hm, ih, List.append_assoc]

/-- The segments produced by `Segment`'s segmentation loop concatenate
to the incoming segment followed by the input lines. -/
theorem segSegs_flatten (e : Regexp) :
    ∀ (b pblock : List String), (segSegs e b pblock).flatten = pblock ++ b := by
  intro b
  induction b with
  | nil => intro pblock; simp [segSegs]
  | cons line rest ih =>
    intro pblock
    by_cases hm : (e.find line).isSome = true
    · simp [segSegs, hm, ih, List.append_assoc]
    · simp [segSegs, hm, ih, List.append_assoc]

/-- The segment filter keeps a sublist of the segments. -/
theorem cutCollect_sublist (s : Regexp) :
    ∀ (segs : List (List String)) (r : List Block × List (List String)),
      cutCollect s segs = some r → List.Sublist r.1 segs := by
  intro segs
  induction segs with
  | nil =>
    intro r h
    injection h with h
    subst h
    exact List.Sublist.refl _
  | cons seg rest ih =>
    intro r h
    simp only [cutCollect] at h
    split at h
    · exact (ih r h).trans (List.sublist_cons_self seg rest)
    · split at h
      next => cases h
      next t0 hget =>
        rcases hrest : cutCollect s rest with _ | ⟨bs, ts⟩
        · rw [hrest] at h; cases h
        · rw [hrest] at h
          injection h with h
          subst h
          exact List.Sublist.cons₂ seg (ih (bs, ts) hrest)

/-- C1: for every input and explicit start/end pattern pair, the
concatenation of the blocks returned by `FetchBlock`, by `Cut` and by
`Segment` is a sublist of the input lines (the lines occur in their
original relative order). -/
theorem C1_concat_sublist (b : Block) (s e : Regexp)
    (r₁ : List Block × Option (List (Option (List String))))
    (r₂ r₃ : List Block × List (List String))
    (h₁ : FetchBlock b s (some e) = some r₁)
    (h₂ : Cut b s = some r₂) (h₃ : Segment b s e = some r₃) :
    List.Sublist r₁.1.flatten b ∧ List.Sublist r₂.1.flatten b ∧
    List.Sublist r₃.1.flatten b := by
  refine ⟨?_, ?_, ?_⟩
  · unfold FetchBlock at h₁
    rcases hlp : fetchLoop s b
        { inBlock := false, e := some e, cur := [], blocks := [], titles := [] }
      with _ | st'
    · rw [hlp] at h₁; cases h₁
    · rw [hlp] at h₁
      simp only [Option.map_some'] at h₁
      have hsub := fetchLoop_flatten s b
        { inBlock := false, e := some e, cur := [], blocks := [], titles := [] }
        st' [] (by simp) hlp
      injection h₁ with h₁
      subst h₁
      simpa using hsub
  · have hsub := flatten_sublist (cutCollect_sublist s (cutSegs s b []) r₂ h₂)
    rw [cutSegs_flatten s b []] at hsub
    simpa using hsub
  · have hsub := flatten_sublist (cutCollect_sublist s (segSegs e b []) r₃ h₃)
    rw [segSegs_flatten e b []] at hsub
    simpa using hsub

/-- Appending the same element preserves the suffix relation. -/
theorem suffix_append_single {α : Type} {a b : List α} (x : α) (h : a <:+ b) :
    a ++ [x] <:+ b ++ [x] := by
  obtain ⟨t, ht⟩ := h
  exact ⟨t, by rw [← List.append_assoc, ht]⟩

/-- An infix of a list is an infix of any right extension of it. -/
theorem infix_extend {α : Type} {bl F : List α} (ext : List α)
    (h : bl <:+: F) : bl <:+: F ++ ext :=
  h.trans ⟨[], ext, by simp⟩

/-- Filtering drops a blank head line. -/
theorem filterNonBlank_cons_blank {line : String} {rest : List String}
    (h : isBlankLine line = true) :
    filterNonBlank (line :: rest) = filterNonBlank rest := by
  simp [filterNonBlank, List.filter_cons, h]

/-- Filtering keeps a non-blank head line. -/
theorem filterNonBlank_cons_nonblank {line : String} {rest : List String}
    (h : isBlankLine line = false) :
    filterNonBlank (line :: rest) = line :: filterNonBlank rest := by
  simp [filterNonBlank, List.filter_cons, h]

/-- One loop pass of `FetchBlock` preserves the contiguity invariant:
the open block is a suffix of the non-blank lines processed so far, it is
empty while outside a block, and every closed block is an infix of those
non-blank lines. -/
theorem fetchStep_infix (s : Regexp) (isLast : Bool) (st st₁ : FBState)
    (line : String) (F : List String)
    (h0 : st.inBlock = false → st.cur = [])
    (hc : st.cur <:+ F)
    (hb : ∀ bl ∈ st.blocks, bl <:+: F)
    (hstep : fetchStep s isLast st line = some st₁) :
    (st₁.inBlock = false → st₁.cur = []) ∧
    st₁.cur <:+ F ++ filterNonBlank [line] ∧
    (∀ bl ∈ st₁.blocks, bl <:+: F ++ filterNonBlank [line]) := by
  rcases fetchStep_shape s isLast st st₁ line hstep with
    ⟨heq, hcase⟩ | ⟨hnb, hin, heq⟩ | ⟨hnb, hin, hfs⟩ | ⟨hnb, hin, hfs⟩
  · subst heq
    rcases hcase with hblank | hout
    · rw [filterNonBlank_cons_blank hblank]
      refine ⟨h0, by simpa [filterNonBlank] using hc,
        fun bl hbl => by simpa [filterNonBlank] using hb bl hbl⟩
    · refine ⟨h0, ?_, fun bl hbl => infix_extend _ (hb bl hbl)⟩
      rw [h0 hout]
      exact ⟨F ++ filterNonBlank [line], by simp⟩
  · subst heq
    rw [filterNonBlank_cons_nonblank hnb]
    have e0 : filterNonBlank [] = ([] : List String) := rfl
    rw [e0]
    refine ⟨fun hco => by simp [hin] at hco, suffix_append_single line hc, ?_⟩
    intro bl hbl
    have hbl' : bl ∈ (if isLast = true then st.blocks ++ [st.cur ++ [line]]
        else st.blocks) := hbl
    by_cases hl : isLast = true
    · rw [if_pos hl] at hbl'
      rcases List.mem_append.mp hbl' with h' | h'
      · exact infix_extend _ (hb bl h')
      · rw [List.mem_singleton.mp h']
        exact (suffix_append_single line hc).isInfix
    · rw [if_neg hl] at hbl'
      exact infix_extend _ (hb bl hbl')
  · rw [filterNonBlank_cons_nonblank hnb]
    have e0 : filterNonBlank [] = ([] : List String) := rfl
    rw [e0]
    have hb₂ : ∀ bl ∈ st.blocks ++ [st.cur], bl <:+: F ++ [line] := by
      intro bl hbl
      rcases List.mem_append.mp hbl with hbl | hbl
      · exact infix_extend _ (hb bl hbl)
      · rw [List.mem_singleton.mp hbl]
        exact infix_extend _ hc.isInfix
    rcases fetchStart_shape _ _ _ _ hfs with heq | ⟨hin₁, _, hcur, hbl₁, _⟩
    · subst heq
      exact ⟨fun _ => rfl, ⟨F ++ [line], by simp⟩, hb₂⟩
    · rw [hbl₁, hcur]
      refine ⟨fun hco => by simp [hin₁] at hco, ⟨F, rfl⟩, hb₂⟩
  · rw [filterNonBlank_cons_nonblank hnb]
    have e0 : filterNonBlank [] = ([] : List String) := rfl
    rw [e0]
    rcases fetchStart_shape _ _ _ _ hfs with heq | ⟨hin₁, _, hcur, hbl₁, _⟩
    · subst heq
      refine ⟨h0, ?_, fun bl hbl => infix_extend _ (hb bl hbl)⟩
      rw [h0 hin]
      exact ⟨F ++ [line], by simp⟩
    · rw [hbl₁, hcur]
      refine ⟨fun hco => by simp [hin₁] at hco, ⟨F, rfl⟩,
        fun bl hbl => infix_extend _ (hb bl hbl)⟩

/-- Running `FetchBlock`'s loop preserves the contiguity invariant, so
every closed block ends up an infix of the non-blank source lines. -/
theorem fetchLoop_infix (s : Regexp) :
    ∀ (lines : List String) (st st' : FBState) (F : List String),
      (st.inBlock = false → st.cur = []) →
      st.cur <:+ F →
      (∀ bl ∈ st.blocks, bl <:+: F) →
      fetchLoop s lines st = some st' →
      ∀ bl ∈ st'.blocks, bl <:+: F ++ filterNonBlank lines := by
  intro lines
  induction lines with
  | nil =>
    intro st st' F h0 hc hb hrun
    simp only [fetchLoop] at hrun
    injection hrun with hrun
    subst hrun
    intro bl hbl
    simpa [filterNonBlank] using hb bl hbl
  | cons line rest ih =>
    intro st st' F h0 hc hb hrun
    simp only [fetchLoop] at hrun
    rcases hstep : fetchStep s rest.isEmpty st line with _ | st₁
    · rw [hstep] at hrun; cases hrun
    · rw [hstep] at hrun
      obtain ⟨h0', hc', hb'⟩ :=
        fetchStep_infix s rest.isEmpty st st₁ line F h0 hc hb hstep
      have hres := ih st₁ st' (F ++ filterNonBlank [line]) h0' hc' hb' hrun
      intro bl hbl
      have hthis := hres bl hbl
      by_cases hbk : isBlankLine line = true
      · have e1 : filterNonBlank [line] = [] := by simp [filterNonBlank, hbk]
        rw [filterNonBlank_cons_blank hbk]
        rw [e1] at hthis
        simpa using hthis
      · have hbk' : isBlankLine line = false := by simpa using hbk
        have e1 : filterNonBlank [line] = [line] := by
          simp [filterNonBlank, hbk']
        rw [filterNonBlank_cons_nonblank hbk']
        rw [e1] at hthis
        simpa [List.append_assoc] using hthis

/-- C7 amended: every block returned by `FetchBlock` is a contiguous
sub-sequence, in original order, of the source with its blank lines
removed (blank lines are the only source lines that can be missing
between a block's first and last line, as `C7_cex` shows). -/
theorem C7_blocks_contiguous_nonblank (b : Block) (s e : Regexp)
    (r : List Block × Option (List (Option (List String))))
    (h : FetchBlock b s (some e) = some r) :
    ∀ bl ∈ r.1, bl <:+: filterNonBlank b := by
  unfold FetchBlock at h
  rcases hlp : fetchLoop s b
      { inBlock := false, e := some e, cur := [], blocks := [], titles := [] }
    with _ | st'
  · rw [hlp] at h; cases h
  · rw [hlp] at h
    simp only [Option.map_some'] at h
    have hres := fetchLoop_infix s b
      { inBlock := false, e := some e, cur := [], blocks := [], titles := [] }
      st' [] (fun _ => rfl) ⟨[], rfl⟩ (by simp) hlp
    injection h with h
    subst h
    intro bl hbl
    simpa using hres bl hbl

/-- Witness for C7's amended statement: the block extracted across a
blank line is an infix of the blank-filtered source. -/
theorem C7_witness : (["A", "b"] : Block) <:+: filterNonBlank ["A", "", "b"] :=
  C7_blocks_contiguous_nonblank ["A", "", "b"] pA pNone ([["A", "b"]], none)
    (by decide) ["A", "b"] (by simp)

/-- If some line of the block matched, the collected rows are
non-empty. -/
theorem mib_true_ne (b : Block) (p : Regexp)
    (h : (MatchInBlock b p).1 = true) : (MatchInBlock b p).2 ≠ [] := by
  induction b with
  | nil => simp [MatchInBlock] at h
  | cons line rest ih =>
    rcases hmb : MatchInBlock rest p with ⟨m, r⟩
    cases hf : p.find line with
    | some l => simp [MatchInBlock, hf, hmb]
    | none =>
      rw [hmb] at ih
      simp only [MatchInBlock, hf, hmb] at h ⊢
      exact ih h

/-- Every collected row of `MatchInBlock` is the capture-group list
`l[1:]` of some line's submatch. -/
theorem mib_rows (b : Block) (p : Regexp) :
    ∀ row ∈ (MatchInBlock b p).2,
      ∃ line l, p.find line = some l ∧ row = l.drop 1 := by
  induction b with
  | nil => simp [MatchInBlock]
  | cons line rest ih =>
    rcases hmb : MatchInBlock rest p with ⟨m, r⟩
    rw [hmb] at ih
    cases hf : p.find line with
    | some l =>
      simp only [MatchInBlock, hf, hmb]
      intro row hrow
      rcases List.mem_cons.mp hrow with hrow | hrow
      · exact ⟨line, l, hf, hrow⟩
      · exact ih row hrow
    | none =>
      simp only [MatchInBlock, hf, hmb]
      exact ih

/-- C10 amended, part: `SoloMatchInBlock` returns normally whenever the
pattern has a capture group. -/
theorem SoloMatchInBlock_total (b : Block) (p : Regexp)
    (hp : ∀ line l, p.find line = some l → 2 ≤ l.length) :
    (SoloMatchInBlock b p).isSome = true := by
  unfold SoloMatchInBlock
  rcases hmb : MatchInBlock b p with ⟨m, mv⟩
  cases m with
  | false => simp
  | true =>
    have hne : mv ≠ [] := by
      have := mib_true_ne b p (by simp [hmb])
      rwa [hmb] at this
    cases mv with
    | nil => exact absurd rfl hne
    | cons row rows =>
      obtain ⟨line, l, hfl, hroweq⟩ :=
        mib_rows b p row (by rw [hmb]; exact List.mem_cons_self _ _)
      have hlen : 2 ≤ l.length := hp line l hfl
      have hrlen : 1 ≤ row.length := by
        rw [hroweq, List.length_drop]
        omega
      cases row with
      | nil => simp at hrlen
      | cons v vs => simp

/-- The `l[0]` collection succeeds when every row is non-empty. -/
theorem sliceCollect_total :
    ∀ mv : List (List String), (∀ row ∈ mv, row ≠ []) →
      (sliceCollect mv).isSome = true := by
  intro mv
  induction mv with
  | nil => intro _; rfl
  | cons row rest ih =>
    intro hall
    have hne : row ≠ [] := hall row (List.mem_cons_self _ _)
    cases row with
    | nil => exact absurd rfl hne
    | cons v vs =>
      have := ih (fun r hr => hall r (List.mem_cons_of_mem _ hr))
      rcases hs : sliceCollect rest with _ | xs
      · rw [hs] at this; simp at this
      · simp [sliceCollect, hs]

/-- C10 amended, part: `SliceMatchInBlock` returns normally whenever the
pattern has a capture group. -/
theorem SliceMatchInBlock_total (b : Block) (p : Regexp)
    (hp : ∀ line l, p.find line = some l → 2 ≤ l.length) :
    (SliceMatchInBlock b p).isSome = true := by
  unfold SliceMatchInBlock
  rcases hmb : MatchInBlock b p with ⟨m, mv⟩
  cases m with
  | false => simp
  | true =>
    have hrows : ∀ row ∈ mv, row ≠ [] := by
      intro row hrow
      obtain ⟨line, l, hfl, hroweq⟩ :=
        mib_rows b p row (by rw [hmb]; exact hrow)
      have hlen : 2 ≤ l.length := hp line l hfl
      rw [hroweq]
      intro hcon
      have : l.length - 1 = 0 := by
        rw [← List.length_drop 1 l, hcon]
        rfl
      omega
    have := sliceCollect_total mv hrows
    rcases hs : sliceCollect mv with _ | xs
    · rw [hs] at this; simp at this
    · simp [hs]

/-- On a non-matching line, or when an end pattern is already present,
or when the start match has a capture group, the start test returns
normally. -/
theorem fetchStart_total (s : Regexp) (st : FBState) (line : String)
    (hor : (st.e).isSome = true ∨
      (∀ l, s.find line = some l →
        2 ≤ l.length ∧ ∀ g, l.get? 1 = some g → backslashFree g = true)) :
    (fetchStart s st line).isSome = true := by
  unfold fetchStart
  split
  · rfl
  next l hf =>
    split
    · rfl
    next he =>
      split
      next hg =>
        rcases hor with hsome | hp
        · rw [he] at hsome; simp at hsome
        · have hlen := (hp l hf).1
          have := List.get?_eq_none.mp hg
          omega
      next g hg =>
        split
        · rfl
        next hbs =>
          rcases hor with hsome | hp
          · rw [he] at hsome; simp at hsome
          · exact absurd ((hp l hf).2 g hg) hbs

/-- A loop pass never turns a present end pattern into an absent one. -/
theorem fetchStep_e_mono (s : Regexp) (isLast : Bool) (st st₁ : FBState)
    (line : String) (hstep : fetchStep s isLast st line = some st₁)
    (h : (st.e).isSome = true) : (st₁.e).isSome = true := by
  rcases fetchStep_shape s isLast st st₁ line hstep with
    ⟨heq, _⟩ | ⟨_, _, heq⟩ | ⟨_, _, hfs⟩ | ⟨_, _, hfs⟩
  · subst heq; exact h
  · subst heq; exact h
  · rcases fetchStart_shape _ _ _ _ hfs with heq | ⟨_, he, _⟩
    · subst heq; exact h
    · exact he
  · rcases fetchStart_shape _ _ _ _ hfs with heq | ⟨_, he, _⟩
    · subst heq; exact h
    · exact he

/-- A loop pass preserves the invariant that an end pattern is present
whenever the scan is inside a block. -/
theorem fetchStep_inv_e (s : Regexp) (isLast : Bool) (st st₁ : FBState)
    (line : String) (hstep : fetchStep s isLast st line = some st₁)
    (hq : st.inBlock = true → (st.e).isSome = true) :
    st₁.inBlock = true → (st₁.e).isSome = true := by
  rcases fetchStep_shape s isLast st st₁ line hstep with
    ⟨heq, _⟩ | ⟨_, hin, heq⟩ | ⟨_, _, hfs⟩ | ⟨_, _, hfs⟩
  · subst heq; exact hq
  · subst heq; exact fun _ => hq hin
  · rcases fetchStart_shape _ _ _ _ hfs with heq | ⟨_, he, _⟩
    · subst heq; exact fun h' => Bool.noConfusion h'
    · exact fun _ => he
  · rcases fetchStart_shape _ _ _ _ hfs with heq | ⟨hin₁, he, _⟩
    · subst heq; exact hq
    · exact fun _ => he

/-- A loop pass returns normally under the in-block invariant, given
either a present end pattern or a start pattern with a capture group. -/
theorem fetchStep_some (s : Regexp) (isLast : Bool) (st : FBState)
    (line : String) (hq : st.inBlock = true → (st.e).isSome = true)
    (hor : (st.e).isSome = true ∨
      (∀ l, s.find line = some l →
        2 ≤ l.length ∧ ∀ g, l.get? 1 = some g → backslashFree g = true)) :
    (fetchStep s isLast st line).isSome = true := by
  unfold fetchStep
  by_cases hbk : isBlankLine line = true
  · simp [hbk]
  · rw [if_neg hbk]
    by_cases hin : st.inBlock = true
    · rw [if_pos hin]
      split
      next he =>
        have := hq hin
        rw [he] at this
        simp at this
      next ep he =>
        split
        next hf => rfl
        next l hf => exact fetchStart_total s _ line (Or.inl (hq hin))
    · rw [if_neg hin]
      exact fetchStart_total s st line hor

/-- `FetchBlock`'s loop returns normally under the same hypotheses. -/
theorem fetchLoop_some (s : Regexp) :
    ∀ (lines : List String) (st : FBState),
      (st.inBlock = true → (st.e).isSome = true) →
      ((st.e).isSome = true ∨
        (∀ line ∈ lines, ∀ l, s.find line = some l →
          2 ≤ l.length ∧ ∀ g, l.get? 1 = some g → backslashFree g = true)) →
      (fetchLoop s lines st).isSome = true := by
  intro lines
  induction lines with
  | nil => intro st _ _; rfl
  | cons line rest ih =>
    intro st hq hor
    simp only [fetchLoop]
    rcases hstep : fetchStep s rest.isEmpty st line with _ | st₁
    · have := fetchStep_some s rest.isEmpty st line hq
        (hor.imp id (fun h => h line (List.mem_cons_self _ _)))
      rw [hstep] at this
      simp at this
    · exact ih st₁ (fetchStep_inv_e s _ st st₁ line hstep hq)
        (hor.imp (fetchStep_e_mono s _ st st₁ line hstep)
          (fun h line' hl' => h line' (List.mem_cons_of_mem _ hl')))

/-- The segment filter of `Cut` and `Segment` returns normally on every
segment list: a matching segment always has a non-empty title list. -/
theorem cutCollect_some (s : Regexp) :
    ∀ segs : List (List String), (cutCollect s segs).isSome = true := by
  intro segs
  induction segs with
  | nil => rfl
  | cons seg rest ih =>
    rcases hmb : MatchInBlock seg s with ⟨m, title⟩
    cases m with
    | false => simp [cutCollect, hmb, ih]
    | true =>
      have hne : title ≠ [] := by
        have := mib_true_ne seg s (by simp [hmb])
        rwa [hmb] at this
      cases title with
      | nil => exact absurd rfl hne
      | cons t0 ts =>
        rcases hc : cutCollect s rest with _ | r
        · rw [hc] at ih; simp at ih
        · simp [cutCollect, hmb, hc]

/-- C10 amended: with an explicit end pattern every operation returns
normally for every pattern; `SoloMatchInBlock` and `SliceMatchInBlock`
also return normally provided the pattern has at least one capture group
(without one they panic, as `C10_cex` shows); `FetchBlock` with a nil
end pattern returns normally provided the start pattern's matches have
at least one capture group whose captured text contains no backslash
(without a capture group `l[1]` panics, and a capture containing a
backslash reaches `regexp.MustCompile` with an unescaped backslash,
which panics on an invalid escape such as `\C`).  `MatchInBlock` and
`RemoveFromBlock` are total by construction. -/
theorem C10_no_panic (b : Block) (s e p : Regexp)
    (hp : ∀ line l, p.find line = some l → 2 ≤ l.length)
    (hbs : ∀ line ∈ b, ∀ l g, p.find line = some l → l.get? 1 = some g →
      backslashFree g = true) :
    (SoloMatchInBlock b p).isSome = true ∧
    (SliceMatchInBlock b p).isSome = true ∧
    (FetchBlock b s (some e)).isSome = true ∧
    (FetchBlock b p none).isSome = true ∧
    (Cut b s).isSome = true ∧
    (Segment b s e).isSome = true := by
  refine ⟨SoloMatchInBlock_total b p hp, SliceMatchInBlock_total b p hp,
    ?_, ?_, cutCollect_some s _, cutCollect_some s _⟩
  · unfold FetchBlock
    rw [Option.isSome_map']
    exact fetchLoop_some s b
      { inBlock := false, e := some e, cur := [], blocks := [], titles := [] }
      (fun h' => Bool.noConfusion h') (Or.inl rfl)
  · unfold FetchBlock
    rw [Option.isSome_map']
    exact fetchLoop_some p b
      { inBlock := false, e := none, cur := [], blocks := [], titles := [] }
      (fun h' => Bool.noConfusion h')
      (Or.inr (fun line hline l hfind =>
        ⟨hp line l hfind, fun g hg => hbs line hline l g hfind hg⟩))

/-- Witness for C10's amended statement on a concrete block with the
one-capture-group pattern `^(.*)$`. -/
theorem C10_witness :
    (SoloMatchInBlock ["x"] pCap).isSome = true ∧
    (SliceMatchInBlock ["x"] pCap).isSome = true ∧
    (FetchBlock ["x"] pA (some pNone)).isSome = true ∧
    (FetchBlock ["x"] pCap none).isSome = true ∧
    (Cut ["x"] pA).isSome = true ∧
    (Segment ["x"] pA pNone).isSome = true :=
  C10_no_panic ["x"] pA pNone pCap
    (fun line l h => by
      have hl : [line, line] = l := by injection h
      rw [← hl]
      simp)
    (fun line hline l g hfind hg => by
      have hx : line = "x" := by simpa using hline
      subst hx
      have hl : ["x", "x"] = l := by injection hfind
      subst hl
      have hg2 : "x" = g := by injection hg
      subst hg2
      decide)

/-- Running `FetchBlock`'s loop with no end pattern is the same as
running it with the end pattern derived from the first capture group of
the first start-matching non-blank line: before that line the end
pattern is never consulted, and at that line the derivation installs
exactly that pattern. -/
theorem fetchLoop_derive (s : Regexp) (g : String) :
    ∀ (lines : List String) (st : FBState),
      st.inBlock = false → st.e = none →
      (∃ line₀ l, firstStartLine s lines = some line₀ ∧
        s.find line₀ = some l ∧ l.get? 1 = some g ∧ backslashFree g = true) →
      fetchLoop s lines st =
        fetchLoop s lines { st with e := some (derivedEndRegexp g) } := by
  intro lines
  induction lines with
  | nil =>
    intro st _ _ h
    obtain ⟨line₀, l, hfs, _, _⟩ := h
    simp [firstStartLine] at hfs
  | cons line rest ih =>
    intro st hin he h
    obtain ⟨line₀, l, hfs, hfind, hg, hbsf⟩ := h
    by_cases hbk : isBlankLine line = true
    · have e1 : fetchStep s rest.isEmpty st line = some st := by
        simp [fetchStep, hbk]
      have e2 : fetchStep s rest.isEmpty
          { st with e := some (derivedEndRegexp g) } line =
          some { st with e := some (derivedEndRegexp g) } := by
        simp [fetchStep, hbk]
      simp only [fetchLoop, e1, e2]
      apply ih st hin he
      refine ⟨line₀, l, ?_, hfind, hg, hbsf⟩
      simpa [firstStartLine, List.find?_cons, hbk] using hfs
    · have hbk' : isBlankLine line = false := by simpa using hbk
      cases hf : s.find line with
      | none =>
        have e1 : fetchStep s rest.isEmpty st line = some st := by
          simp [fetchStep, fetchStart, hbk', hin, hf]
        have e2 : fetchStep s rest.isEmpty
            { st with e := some (derivedEndRegexp g) } line =
            some { st with e := some (derivedEndRegexp g) } := by
          simp [fetchStep, fetchStart, hbk', hin, hf]
        simp only [fetchLoop, e1, e2]
        apply ih st hin he
        refine ⟨line₀, l, ?_, hfind, hg, hbsf⟩
        simpa [firstStartLine, List.find?_cons, hbk', hf] using hfs
      | some l' =>
        have hline : line₀ = line := by
          have hthis : firstStartLine s (line :: rest) = some line := by
            simp [firstStartLine, List.find?_cons, hbk', hf]
          rw [hthis] at hfs
          injection hfs with hfs
          exact hfs.symm
        subst hline
        have hl : l' = l := by
          rw [hf] at hfind
          injection hfind
        subst hl
        have hg2 : l'[1]? = some g := by
          rw [← List.get?_eq_getElem?]
          exact hg
        have e1 : fetchStep s rest.isEmpty st line₀ =
            some { st with inBlock := true, e := some (derivedEndRegexp g),
                           titles := st.titles ++ [titleEntry l'],
                           cur := [line₀] } := by
          simp [fetchStep, fetchStart, hbk', hin, hf, he, hg2, hbsf]
        have e2 : fetchStep s rest.isEmpty
            { st with e := some (derivedEndRegexp g) } line₀ =
            some { st with inBlock := true, e := some (derivedEndRegexp g),
                           titles := st.titles ++ [titleEntry l'],
                           cur := [line₀] } := by
          simp [fetchStep, fetchStart, hbk', hin, hf]
        simp only [fetchLoop, e1, e2]

/-- C4 counterexample: the code does not escape all regex
metacharacters — the backslash, a metacharacter, passes through the
escape unchanged.  On the concrete capture group `\d` the code's escape
leaves `\d` as is, whereas escaping every metacharacter would produce
`\\d`; the built pattern `^\d\S` therefore matches a digit followed by a
non-space character, not lines beginning with the literal text `\d`. -/
theorem C4_cex :
    escapeRegexMeta "\\d" = "\\d" ∧
    escapeAllRegexMetaSpec "\\d" = "\\\\d" ∧
    escapeRegexMeta "\\d" ≠ escapeAllRegexMetaSpec "\\d" ∧
    '\\' ∈ regexMetaCharsSpec ∧ '\\' ∉ regexMetaChars := by
  refine ⟨by decide, by decide, by decide, by decide, by decide⟩

/-- C4 amended: the derivation escapes the metacharacters
`. ^ $ * + ? { } [ ] | ( )` — but not the backslash — of the first
start-line match's first capture group `g`; when `g` contains no
backslash, invoking `FetchBlock` with a nil end pattern behaves exactly
like invoking it with the compiled `^<escaped g>\S` (a line beginning
with the literal text of `g` immediately followed by a non-space
character), used as the end condition for the whole remainder of the
scan. -/
theorem C4_derived_end_pattern (b : Block) (s : Regexp) (line₀ : String)
    (l : List String) (g : String)
    (hfs : firstStartLine s b = some line₀)
    (hfind : s.find line₀ = some l) (hg : l.get? 1 = some g)
    (hbsf : backslashFree g = true) :
    FetchBlock b s none = FetchBlock b s (some (derivedEndRegexp g)) := by
  unfold FetchBlock
  rw [fetchLoop_derive s g b
    { inBlock := false, e := none, cur := [], blocks := [], titles := [] }
    rfl rfl ⟨line₀, l, hfs, hfind, hg, hbsf⟩]

/-- Witness for C4's amended statement on the tabular sample: the
nil-end-pattern run equals the run with the end pattern derived from the
backslash-free capture group. -/
theorem C4_witness :
    FetchBlock ifaceLines startIface none =
      FetchBlock ifaceLines startIface (some (derivedEndRegexp "I")) :=
  C4_derived_end_pattern ifaceLines startIface "Interface   Status   Protocol"
    ["Interface", "I"] "I" (by decide) (by decide) (by decide) (by decide)

/-- The replacement scan returns an empty text unchanged. -/
theorem rmLoop_nil : ∀ fuel, rmLoop fuel [] = [] := by
  intro fuel
  cases fuel with
  | zero => rfl
  | succ n => rfl

/-- Every match of the duration pattern consumes at least one
character. -/
theorem matchAt_pos (cs : List Char) (n : Nat) (h : matchAt cs = some n) :
    1 ≤ n := by
  cases cs with
  | nil => simp [matchAt] at h
  | cons c rest =>
    unfold matchAt at h
    by_cases hb : isWordChar c = true
    · simp [hb] at h
    · cases hAlt : matchAlt rest with
      | none => simp [hb, hAlt] at h
      | some m =>
        cases hD : rest.drop m with
        | nil =>
          simp [hb, hAlt, hD] at h
          omega
        | cons d tail =>
          by_cases hw2 : isWordChar d = true
          · simp [hb, hAlt, hD, hw2] at h
            omega
          · simp [hb, hAlt, hD, hw2] at h
            omega

/-- The replacement scan does not depend on the fuel, as long as the
fuel covers the length of the text. -/
theorem rmLoop_fuel :
    ∀ (f₁ : Nat) (cs : List Char) (f₂ : Nat),
      cs.length ≤ f₁ → cs.length ≤ f₂ → rmLoop f₁ cs = rmLoop f₂ cs := by
  intro f₁
  induction f₁ with
  | zero =>
    intro cs f₂ h1 _
    have hnil : cs = [] := List.eq_nil_of_length_eq_zero (Nat.le_zero.mp h1)
    subst hnil
    rw [rmLoop_nil, rmLoop_nil]
  | succ a ih =>
    intro cs f₂ h1 h2
    cases cs with
    | nil => rw [rmLoop_nil, rmLoop_nil]
    | cons c rest =>
      cases f₂ with
      | zero => simp at h2
      | succ b =>
        simp only [rmLoop]
        cases hAt : matchAt (c :: rest) with
        | none =>
          simp only [hAt]
          rw [ih rest b (by simp only [List.length_cons] at h1; omega)
            (by simp only [List.length_cons] at h2; omega)]
        | some n =>
          have hn := matchAt_pos _ _ hAt
          simp only [hAt]
          rw [ih ((c :: rest).drop n) b
            (by rw [List.length_drop]
                simp only [List.length_cons] at h1 ⊢
                omega)
            (by rw [List.length_drop]
                simp only [List.length_cons] at h2 ⊢
                omega)]

/-- A text made of word characters contains no match of the duration
pattern (every match begins with a non-word character) and is returned
unchanged by the replacement scan. -/
theorem rmLoop_all_word :
    ∀ (cs : List Char) (f : Nat), cs.all isWordChar = true →
      rmLoop f cs = cs := by
  intro cs
  induction cs with
  | nil => intro f _; exact rmLoop_nil f
  | cons c rest ih =>
    intro f hall
    simp only [List.all_cons, Bool.and_eq_true] at hall
    cases f with
    | zero => rfl
    | succ m =>
      have hAt : matchAt (c :: rest) = none := by
        unfold matchAt
        simp [hall.1]
      simp only [rmLoop, hAt]
      rw [ih m hall.2]

/-- Scanning a line made of word characters, a bounding non-word
character, a duration token (matched in full by the alternation at that
position) and an arbitrary remainder: the single leftmost match starts
at the bound; the bound and the token — and the remainder's leading
non-word character, when there is one — are replaced by the
placeholder, and the scan continues on what is left of the
remainder. -/
theorem rmLoop_bounded_match :
    ∀ (pre : List Char) (w : Char) (tok suf : List Char) (fuel : Nat),
      pre.all isWordChar = true →
      isWordChar w = false →
      matchAlt (tok ++ suf) = some tok.length →
      fuel = (pre ++ w :: (tok ++ suf)).length →
      rmLoop fuel (pre ++ w :: (tok ++ suf)) =
        pre ++ placeholder ++
          (match suf with
           | [] => []
           | d :: suf' =>
             if isWordChar d then rmLoop (d :: suf').length (d :: suf')
             else rmLoop suf'.length suf') := by
  intro pre
  induction pre with
  | nil =>
    intro w tok suf fuel _ hw hm hfuel
    subst hfuel
    simp only [List.nil_append, List.length_cons]
    cases suf with
    | nil =>
      simp only [List.append_nil] at hm ⊢
      have hAt : matchAt (w :: tok) = some (tok.length + 1) := by
        unfold matchAt
        simp [hw, hm, List.drop_length]
      simp only [rmLoop, hAt]
      simp [List.drop_succ_cons, List.drop_length, rmLoop_nil]
    | cons d suf' =>
      have hdrop : (tok ++ d :: suf').drop tok.length = d :: suf' :=
        List.drop_left tok (d :: suf')
      by_cases hword : isWordChar d = true
      · have hAt : matchAt (w :: (tok ++ d :: suf')) =
            some (tok.length + 1) := by
          unfold matchAt
          simp [hw, hm, hdrop, hword]
        conv_lhs => rw [rmLoop]
        simp only [hAt]
        rw [List.drop_succ_cons, hdrop]
        rw [rmLoop_fuel ((tok ++ d :: suf').length) (d :: suf')
          ((d :: suf').length)
          (by simp only [List.length_append, List.length_cons]; omega)
          (le_refl _)]
        simp only [List.nil_append, if_pos hword, List.length_cons]
      · have hAt : matchAt (w :: (tok ++ d :: suf')) =
            some (tok.length + 2) := by
          unfold matchAt
          simp [hw, hm, hdrop, hword]
        conv_lhs => rw [rmLoop]
        simp only [hAt]
        have hdrop2 : (w :: (tok ++ d :: suf')).drop (tok.length + 2) =
            suf' := by
          rw [List.drop_succ_cons, ← List.drop_drop, hdrop]
          rfl
        rw [hdrop2]
        rw [rmLoop_fuel ((tok ++ d :: suf').length) suf' suf'.length
          (by simp only [List.length_append, List.length_cons]; omega)
          (le_refl _)]
        simp only [List.nil_append, if_neg hword]
  | cons c pre' ih =>
    intro w tok suf fuel hall hw hm hfuel
    simp only [List.all_cons, Bool.and_eq_true] at hall
    subst hfuel
    have hAt : matchAt (c :: (pre' ++ w :: (tok ++ suf))) = none := by
      unfold matchAt
      simp [hall.1]
    simp only [List.cons_append, List.length_cons]
    conv_lhs => rw [rmLoop]
    simp only [hAt]
    rw [ih w tok suf _ hall.2 hw hm rfl]
    simp only [List.cons_append, List.append_assoc, List.length_cons]

/-- C9 amended: on a line made of a word-character prefix, a bounding
non-word character, a duration token (one the pattern's alternation
matches exactly at that position) and an arbitrary remainder, `RmPeriod`
leaves the prefix unchanged and replaces the token together with its
bounding non-word characters — the preceding one, and the remainder's
leading one when present — with the placeholder, then continues scanning
the rest of the remainder in the same way; in particular, when the
remainder consists of word characters only, it is left unchanged.  (The
bounding characters are consumed because they are part of the
`\W(...)\W?` match, as `C9_cex` shows on `"uptime 3d04h22m"`.) -/
theorem C9_duration_redaction (pre tok suf : String) (w : Char)
    (hpre : pre.data.all isWordChar = true)
    (hw : isWordChar w = false)
    (htok : matchAlt (tok.data ++ suf.data) = some tok.data.length) :
    RmPeriod [pre ++ String.mk [w] ++ tok ++ suf] =
      [pre ++ "####" ++
        (match suf.data with
         | [] => ""
         | d :: suf' =>
           if isWordChar d then rmPeriodLine suf
           else rmPeriodLine (String.mk suf'))] ∧
    (suf.data.all isWordChar = true →
      RmPeriod [pre ++ String.mk [w] ++ tok ++ suf] =
        [pre ++ "####" ++ suf]) := by
  have hdata : (pre ++ String.mk [w] ++ tok ++ suf).data =
      pre.data ++ w :: (tok.data ++ suf.data) := by
    rw [String.data_append, String.data_append, String.data_append]
    simp [List.append_assoc]
  have hmain : RmPeriod [pre ++ String.mk [w] ++ tok ++ suf] =
      [pre ++ "####" ++
        (match suf.data with
         | [] => ""
         | d :: suf' =>
           if isWordChar d then rmPeriodLine suf
           else rmPeriodLine (String.mk suf'))] := by
    unfold RmPeriod rmPeriodLine
    simp only [List.map_cons, List.map_nil]
    rw [hdata]
    rw [rmLoop_bounded_match pre.data w tok.data suf.data _ hpre hw htok rfl]
    rcases suf with ⟨sd⟩
    cases sd with
    | nil =>
      rcases pre with ⟨pd⟩
      rfl
    | cons d sd' =>
      by_cases hword : isWordChar d = true
      · simp only [if_pos hword]
        rcases pre with ⟨pd⟩
        rfl
      · simp only [if_neg hword]
        rcases pre with ⟨pd⟩
        rfl
  refine ⟨hmain, fun hallw => ?_⟩
  rw [hmain]
  rcases suf with ⟨sd⟩
  cases sd with
  | nil => rfl
  | cons d sd' =>
    simp only [List.all_cons, Bool.and_eq_true] at hallw
    simp only [if_pos hallw.1]
    have hid : rmPeriodLine (String.mk (d :: sd')) = String.mk (d :: sd') := by
      unfold rmPeriodLine
      rw [rmLoop_all_word (d :: sd') _
        (by simp only [List.all_cons, Bool.and_eq_true]
            exact ⟨hallw.1, hallw.2⟩)]
    rw [hid]

/-- Witness for C9's amended statement: the specification's sample line
(token at the end of the line), a mid-line `3w2d` token bounded on both
sides, and an `hh:mm:ss` token followed by a bounding period. -/
theorem C9_witness :
    RmPeriod ["uptime" ++ String.mk [' '] ++ "3d04h22m" ++ ""] =
      ["uptime####"] ∧
    RmPeriod ["up" ++ String.mk [' '] ++ "3w2d" ++ " x"] = ["up####x"] ∧
    RmPeriod ["t" ++ String.mk [' '] ++ "10:30:45" ++ "."] = ["t####"] := by
  refine ⟨?_, ?_, ?_⟩
  · have h := (C9_duration_redaction "uptime" "3d04h22m" "" ' '
      (by decide) (by decide) (by decide)).1
    exact h.trans (by decide)
  · have h := (C9_duration_redaction "up" "3w2d" " x" ' '
      (by decide) (by decide) (by decide)).1
    exact h.trans (by decide)
  · have h := (C9_duration_redaction "t" "10:30:45" "." ' '
      (by decide) (by decide) (by decide)).1
    exact h.trans (by decide)

/-- Witness for C1 on a concrete input and pattern pair. -/
theorem C1_witness :
    FetchBlock ["A", "x"] pA (some pZero) = some ([["A"]], none) ∧
    Cut ["A", "x"] pA = some ([["A", "x"]], [[]]) ∧
    Segment ["A", "x"] pA pZero = some ([["A", "x"]], [[]]) ∧
    (List.Sublist ([["A"]] : List Block).flatten ["A", "x"] ∧
     List.Sublist ([["A", "x"]] : List Block).flatten ["A", "x"] ∧
     List.Sublist ([["A", "x"]] : List Block).flatten ["A", "x"]) :=
  ⟨by decide, by decide, by decide,
   C1_concat_sublist ["A", "x"] pA pZero ([["A"]], none) ([["A", "x"]], [[]])
     ([["A", "x"]], [[]]) (by decide) (by decide) (by decide)⟩

end Tbp
